import Mathlib

/-!
Verification of the exact-rational Shamir-share reconstruction program
(`src/code.cpp`, with the variant `src/unnamed/part_000`).

The development shallowly embeds the program: `cpp_int` becomes `Int`, the
`Frac` struct becomes a structure of two integers, thrown `runtime_error`s
become `Except String`, and the in-place loops become structural recursions
or first-error-then-pointwise updates (justified in the individual doc
comments).  Definitions are kept executable so that concrete runs of the
program can be settled by `decide`.
-/

deriving instance DecidableEq for Except

namespace Shamir

/-- Arbitrary-precision fraction, mirroring `struct Frac { cpp_int num; cpp_int den; }`
from `src/code.cpp` (the struct is identical in `src/unnamed/part_000`). -/
structure Frac where
  num : Int
  den : Int
deriving DecidableEq, Repr

instance : Inhabited Frac := ⟨⟨0, 1⟩⟩

/-- Euclidean loop of `Frac::gcd_abs` (`while (b != 0) { r = a % b; a = b; b = r; }`)
after both operands have been made non-negative.  The loop strictly decreases `b`,
so an explicit fuel of `b + 1` rounds always suffices; the fuel only makes the
recursion structural (see `gcd_steps_eq_gcd`). -/
def gcd_steps : Nat → Nat → Nat → Nat
  | 0, a, _ => a
  | fuel + 1, a, b => if b = 0 then a else gcd_steps fuel b (a % b)

/-- Model of `Frac::gcd_abs`: negate negative operands, then run Euclid's loop. -/
def gcd_abs (a b : Int) : Int := (gcd_steps (b.natAbs + 1) a.natAbs b.natAbs : Int)

/-- Model of the `Frac(cpp_int n, cpp_int d)` constructor.  A zero denominator throws
`runtime_error("zero denominator")`; otherwise the sign is moved to the numerator
(`if (d < 0) { n = -n; d = -d; }`) and both parts are divided by
`gcd_abs(n < 0 ? -n : n, d)`.  C++ integer division truncates, hence `Int.tdiv`
(the division is exact here, so this matters only for faithfulness). -/
def mkFrac (n d : Int) : Except String Frac :=
  if d = 0 then .error "zero denominator"
  else
    let n1 := if d < 0 then -n else n
    let d1 := if d < 0 then -d else d
    let g := gcd_abs (if n1 < 0 then -n1 else n1) d1
    .ok ⟨n1.tdiv g, d1.tdiv g⟩

/-- Model of `Frac::operator+`. -/
def Frac.add (a b : Frac) : Except String Frac :=
  mkFrac (a.num * b.den + b.num * a.den) (a.den * b.den)

/-- Model of `Frac::operator-`. -/
def Frac.sub (a b : Frac) : Except String Frac :=
  mkFrac (a.num * b.den - b.num * a.den) (a.den * b.den)

/-- Model of `Frac::operator*`. -/
def Frac.mul (a b : Frac) : Except String Frac :=
  mkFrac (a.num * b.num) (a.den * b.den)

/-- Model of `Frac::operator/`: dividing by a fraction with zero numerator throws
`runtime_error("division by zero fraction")`. -/
def Frac.div (a b : Frac) : Except String Frac :=
  if b.num = 0 then .error "division by zero fraction"
  else mkFrac (a.num * b.den) (a.den * b.num)

/-- Model of `Frac::isInteger` (`return den == 1;`). -/
def Frac.isInteger (f : Frac) : Bool := f.den == 1

/-- Value of a successful fraction computation (callers use it only where the
computation is known to succeed; the `default` branch is dead there). -/
def okOf (e : Except String Frac) : Frac :=
  match e with
  | .ok v => v
  | .error _ => default

/-- Error of a fraction computation, if any. -/
def errOf (e : Except String Frac) : Option String :=
  match e with
  | .ok _ => none
  | .error s => some s

/-- Matrices of the elimination are addressed exactly like the C++
`vector<vector<Frac>> A(k, vector<Frac>(k+1, Frac(0,1)))`: row index then column
index; cells outside the `k × (k+1)` block are never read nor written by the
algorithm and stay at their initial value. -/
def Mat : Type := Nat → Nat → Frac

/-- Augmented-matrix construction of `interpolate_and_check` (`src/code.cpp`
lines 113–122): `A[i][j] = Frac(power, 1)` where the running `power` equals
`xs[i]^j`, and `A[i][k] = Frac(ys[i], 1)`; every other cell keeps the initial
`Frac(0, 1)`.  The constructor `Frac(v, 1)` reduces to `⟨v, 1⟩`
(lemma `mkFrac_int_one`). -/
def buildMatrix (xs ys : List Int) : Mat := fun i j =>
  let k := xs.length
  if i < k then
    if j < k then ⟨(xs.getD i 0) ^ j, 1⟩
    else if j = k then ⟨ys.getD i 0, 1⟩
    else ⟨0, 1⟩
  else ⟨0, 1⟩

/-- Row swap `swap(A[sel], A[row])`.  (The source guards it with `sel != row`, but
swapping a row with itself changes nothing, so the guard is immaterial.) -/
def swapRows (A : Mat) (r1 r2 : Nat) : Mat := fun i j =>
  if i = r1 then A r2 j else if i = r2 then A r1 j else A i j

/-- Pivot-row normalisation `for (int c = col; c <= kk; ++c) A[row][c] = A[row][c] / pivot;`.
The iterations write pairwise-distinct cells and each one reads only its own cell and
the pre-saved `pivot`, so the in-place loop equals this form: the first failing
division (in loop order) raises its error and the exception propagates, otherwise
every targeted cell is divided. -/
def rowDivide (A : Mat) (row col kk : Nat) (pivot : Frac) : Except String Mat :=
  match (List.range' col (kk + 1 - col)).findSome? (fun c => errOf ((A row c).div pivot)) with
  | some e => .error e
  | none => .ok (fun i j =>
      if i = row ∧ col ≤ j ∧ j ≤ kk then okOf ((A i j).div pivot) else A i j)

/-- Update expression of the elimination inner loop: with `factor = A[r][col]` saved
before the inner loop, each cell becomes `A[r][c] - factor * A[row][c]` (the product
is evaluated first, then the difference, matching the C++ evaluation order of
`A[r][c] - factor * A[row][c]`). -/
def elimEntry (A : Mat) (row col r c : Nat) : Except String Frac :=
  match (A r col).mul (A row c) with
  | .error e => .error e
  | .ok v => (A r c).sub v

/-- Cell order of the elimination loops of `interpolate_and_check`: rows
`r = 0..kk-1` skipping `r = row`, inner columns `c = col..kk`. -/
def elimCells (kk row col : Nat) : List (Nat × Nat) :=
  (List.range kk).flatMap (fun r =>
    if r = row then [] else (List.range' col (kk + 1 - col)).map (fun c => (r, c)))

/-- Elimination of the pivot column from all other rows (`src/code.cpp`
lines 135–142): rows with `factor.num == 0` are skipped (`continue`), the others get
`A[r][c] -= factor * A[row][c]` for `c = col..kk`.  As in `rowDivide`, iterations
touch pairwise-distinct cells: the one at `(r, c)` writes `(r, c)` and reads `(r, c)`,
the pre-saved `factor = A[r][col]`, and row `row`, which is never written; hence the
in-place loop equals the first-error scan plus the pointwise update. -/
def eliminateOthers (A : Mat) (row col kk : Nat) : Except String Mat :=
  match (elimCells kk row col).findSome? (fun rc =>
      if (A rc.1 col).num = 0 then none else errOf (elimEntry A row col rc.1 rc.2)) with
  | some e => .error e
  | none => .ok (fun i j =>
      if i < kk ∧ i ≠ row ∧ (A i col).num ≠ 0 ∧ col ≤ j ∧ j ≤ kk
      then okOf (elimEntry A row col i j) else A i j)

/-- One iteration of the Gaussian elimination loop of `interpolate_and_check`
(`src/code.cpp` lines 124–143).  The source advances `col` and `row` together
(`for (int col = 0, row = 0; col < k && row < k; ++col, ++row)`), so a single index
`s` plays both roles.  The pivot search scans `r = s..kk-1` for the first row whose
column-`s` entry has nonzero numerator; when none exists, `sel` stays at `row` and the
`A[sel][col].num == 0` test fires — `return false`, modelled as `.ok none`. -/
def elimStep (kk : Nat) (A : Mat) (s : Nat) : Except String (Option Mat) :=
  match (List.range' s (kk - s)).find? (fun r => (A r s).num != 0) with
  | none => .ok none
  | some sel =>
    let A1 := swapRows A s sel
    let pivot := A1 s s
    match rowDivide A1 s s kk pivot with
    | .error e => .error e
    | .ok A2 =>
      match eliminateOthers A2 s s kk with
      | .error e => .error e
      | .ok A3 => .ok (some A3)

/-- Iterated elimination steps. -/
def elimLoop (kk : Nat) : List Nat → Mat → Except String (Option Mat)
  | [], A => .ok (some A)
  | s :: rest, A =>
    match elimStep kk A s with
    | .error e => .error e
    | .ok none => .ok none
    | .ok (some A2) => elimLoop kk rest A2

/-- Full Gaussian elimination phase of `interpolate_and_check`: steps `s = 0..kk-1`. -/
def gaussElim (kk : Nat) (A : Mat) : Except String (Option Mat) :=
  elimLoop kk (List.range kk) A

/-- Elimination plus solution extraction (`out_coeff.assign(k, Frac(0,1));
for (i) out_coeff[i] = A[i][k];`, lines 145–146 of `src/code.cpp`); `.ok none` is the
singular `return false` of the elimination. -/
def solve_coeffs (xs ys : List Int) : Except String (Option (List Frac)) :=
  let k := xs.length
  match gaussElim k (buildMatrix xs ys) with
  | .error e => .error e
  | .ok none => .ok none
  | .ok (some M) => .ok (some ((List.range k).map (fun i => M i k)))

/-- Model of `interpolate_and_check` from `src/code.cpp`: solve, then accept only if
every coefficient `isInteger()` (this variant explicitly allows negative or zero
coefficients, lines 148–152). -/
def interpolate_and_check (xs ys : List Int) : Except String (Option (List Frac)) :=
  match solve_coeffs xs ys with
  | .error e => .error e
  | .ok none => .ok none
  | .ok (some out) => if out.all Frac.isInteger then .ok (some out) else .ok none

/-- Model of `interpolate_and_check` from `src/unnamed/part_000`, whose final check
additionally rejects any coefficient with `num <= 0` ("ensure all coefficients are
integer and strictly positive", lines 163–168). -/
def interpolate_and_check_v0 (xs ys : List Int) : Except String (Option (List Frac)) :=
  match solve_coeffs xs ys with
  | .error e => .error e
  | .ok none => .ok none
  | .ok (some out) =>
    if out.all (fun f => f.isInteger && decide (0 < f.num)) then .ok (some out) else .ok none

/-- Enumeration order of the subset-selection loop in `find_valid_constant`
(`src/code.cpp` lines 160–175): the mask vector starts as `k` ones followed by
`n - k` zeros (the greatest permutation of that multiset), and each
`std::prev_permutation` moves to the next-smaller distinct permutation, returning
false after the least one; the `do … while` therefore visits every 0/1 vector of
length `n` with exactly `k` ones, in decreasing lexicographic order.  `masks n k` is
exactly that sequence (masks starting with 1 precede masks starting with 0, each group
ordered recursively); `masks_mem` characterises membership and `masks_pairwise_lex`
the order. -/
def masks : Nat → Nat → List (List Nat)
  | 0, 0 => [[]]
  | 0, _ + 1 => []
  | n + 1, 0 => (masks n 0).map (fun m => 0 :: m)
  | n + 1, k + 1 => ((masks n k).map (fun m => 1 :: m)) ++ ((masks n (k + 1)).map (fun m => 0 :: m))

/-- Subset extraction `for (int i = 0; i < n; ++i) if (choose[i]) { xs.push_back(xs_full[i]); … }`;
a mask entry selects its point when it is nonzero, the C++ truth test. -/
def subsetOf (mask : List Nat) (xs : List Int) : List Int :=
  ((mask.zip xs).filter (fun p => p.1 != 0)).map (fun p => p.2)

/-- Body of the `do { … } while (prev_permutation(…))` loop of `find_valid_constant`:
try each mask in order; on the first accepted subset, return `coeffs[0].num` and stop.
Exceptions from `interpolate_and_check` propagate (the source has no catch). -/
def fvc_loop (xs ys : List Int) : List (List Nat) → Except String (Option Int)
  | [] => .ok none
  | m :: ms =>
    match interpolate_and_check (subsetOf m xs) (subsetOf m ys) with
    | .error e => .error e
    | .ok (some coeffs) => .ok (some coeffs.headI.num)
    | .ok none => fvc_loop xs ys ms

/-- Model of `find_valid_constant` from `src/code.cpp` (lines 156–177):
`.ok (some c)` is `return true` with `constant_out = c`; `.ok none` is
`return false`. -/
def find_valid_constant (xs ys : List Int) (k : Nat) : Except String (Option Int) :=
  let n := xs.length
  if k > n then .ok none
  else fvc_loop xs ys (masks n k)

/-- Variant of `fvc_loop` calling the `src/unnamed/part_000` acceptance check. -/
def fvc_loop_v0 (xs ys : List Int) : List (List Nat) → Except String (Option Int)
  | [] => .ok none
  | m :: ms =>
    match interpolate_and_check_v0 (subsetOf m xs) (subsetOf m ys) with
    | .error e => .error e
    | .ok (some coeffs) => .ok (some coeffs.headI.num)
    | .ok none => fvc_loop_v0 xs ys ms

/-- Model of `find_valid_constant` from `src/unnamed/part_000`. -/
def find_valid_constant_v0 (xs ys : List Int) (k : Nat) : Except String (Option Int) :=
  let n := xs.length
  if k > n then .ok none
  else fvc_loop_v0 xs ys (masks n k)

/-- Instrumentation of `fvc_loop`: how many `interpolate_and_check` calls it makes
(each loop iteration makes exactly one; a success or an exception stops the loop). -/
def fvc_loop_count (xs ys : List Int) : List (List Nat) → Nat
  | [] => 0
  | m :: ms =>
    match interpolate_and_check (subsetOf m xs) (subsetOf m ys) with
    | .ok none => 1 + fvc_loop_count xs ys ms
    | _ => 1

/-- Instrumentation of `find_valid_constant`: number of subset interpolation attempts. -/
def find_valid_constant_attempts (xs ys : List Int) (k : Nat) : Nat :=
  if k > xs.length then 0 else fvc_loop_count xs ys (masks xs.length k)

/-- C++ `isspace` on the default locale, as used by `parse_in_base_cpp`. -/
def isspace_cpp (c : Char) : Bool :=
  c = ' ' || c = '\t' || c = '\n' || c = '\x0b' || c = '\x0c' || c = '\r'

/-- Model of `parse_in_base_cpp` (`src/code.cpp` lines 74–88): skip whitespace, map
`0-9`, `a-z`, `A-Z` to digit values, throw `invalid digit: <ch>` for any other
character and `digit >= base in parse_in_base_cpp` when the digit value reaches the
base, otherwise accumulate `val = val * base + d`. -/
def parse_in_base_cpp (s : String) (base : Int) : Except String Int :=
  s.data.foldlM (fun val ch =>
    if isspace_cpp ch then .ok val
    else
      match (if '0' ≤ ch ∧ ch ≤ '9' then some ((ch.toNat : Int) - ('0'.toNat : Int))
             else if 'a' ≤ ch ∧ ch ≤ 'z' then some ((ch.toNat : Int) - ('a'.toNat : Int) + 10)
             else if 'A' ≤ ch ∧ ch ≤ 'Z' then some ((ch.toNat : Int) - ('A'.toNat : Int) + 10)
             else none) with
      | none => .error ("invalid digit: ".push ch)
      | some d =>
        if d < 0 ∨ base ≤ d then .error "digit >= base in parse_in_base_cpp"
        else .ok (val * base + d)) 0

/-- One parsed share record of a request: the share index (its JSON key), the base
field and the value string.  The textual key scanning of `solve_one_json_string`
(`src/code.cpp` lines 201–235) is abstracted into this structured form: the model
receives the records the scan found, in index order, with `base` the number obtained
by the `stoi` (with its quoted/unquoted fallback) and `value` the quoted value
string. -/
structure RecordEntry where
  idx : Int
  base : Int
  value : String
deriving DecidableEq, Repr

/-- One JSON request object: `keys.n`, `keys.k` and the present records. -/
structure Request where
  n : Int
  k : Int
  entries : List RecordEntry
deriving DecidableEq, Repr

/-- Model of `solve_one_json_string` (`src/code.cpp` lines 200–249) over structured
records: reject non-positive `n` or `k`; decode each present record's value with
`parse_in_base_cpp`, whose exception propagates — the source has no try/catch around
it; reject when fewer than `k` points were parsed; otherwise run
`find_valid_constant`.  `.ok none` is `return false` (printed as `ERROR` by `main`).
The decimal formatting `cpp_int_to_string` is external output formatting (spec §6)
and is not modelled; the secret is returned as an integer. -/
def solve_one (req : Request) : Except String (Option Int) :=
  if req.n ≤ 0 ∨ req.k ≤ 0 then .ok none
  else
    match req.entries.mapM (fun e => parse_in_base_cpp e.value e.base) with
    | .error e => .error e
    | .ok ys =>
      let xs := req.entries.map (fun e => e.idx)
      if (xs.length : Int) < req.k then .ok none
      else find_valid_constant xs ys req.k.toNat

/-- Instrumentation of `solve_one`: number of subset interpolation attempts. -/
def solve_one_attempts (req : Request) : Nat :=
  if req.n ≤ 0 ∨ req.k ≤ 0 then 0
  else
    match req.entries.mapM (fun e => parse_in_base_cpp e.value e.base) with
    | .error _ => 0
    | .ok ys =>
      let xs := req.entries.map (fun e => e.idx)
      if (xs.length : Int) < req.k then 0
      else find_valid_constant_attempts xs ys req.k.toNat

/-- Model of the batch loop of `main` (`src/code.cpp` lines 273–283): each object is
solved in turn and yields one output line (`some c` printed as the constant, `none`
printed as `ERROR`).  No exception is caught anywhere in `main` or below it, so a
single thrown `runtime_error` aborts the whole batch (C++ `std::terminate`), which the
`Except`-threading `mapM` reproduces: `.error` discards all remaining requests. -/
def process_batch (reqs : List Request) : Except String (List (Option Int)) :=
  reqs.mapM solve_one

/-! ## Basic facts about `Frac` -/

/-- The fuelled Euclid loop computes the greatest common divisor whenever the fuel
exceeds the second operand (which the call site always grants). -/
theorem gcd_steps_eq_gcd : ∀ (fuel a b : Nat), b < fuel → gcd_steps fuel a b = Nat.gcd b a := by
  intro fuel
  induction fuel with
  | zero => intro a b h; omega
  | succ f ih =>
    intro a b h
    by_cases hb : b = 0
    · subst hb; simp [gcd_steps]
    · rw [gcd_steps, if_neg hb, ih b (a % b) (by
        have h1 : a % b < b := Nat.mod_lt a (Nat.pos_of_ne_zero hb)
        omega)]
      rw [Nat.gcd_rec b a]

/-- The loop embedding of `gcd_abs` agrees with the mathematical gcd. -/
theorem gcd_abs_eq (a b : Int) : gcd_abs a b = (Int.gcd a b : Int) := by
  unfold gcd_abs
  rw [gcd_steps_eq_gcd _ _ _ (Nat.lt_succ_self _), Nat.gcd_comm]
  rfl

/-- Invariant of constructed fractions: positive denominator, lowest terms. -/
def Frac.Valid (f : Frac) : Prop := 0 < f.den ∧ Int.gcd f.num f.den = 1

/-- Rational value of a fraction. -/
def Frac.toRat (f : Frac) : ℚ := (f.num : ℚ) / (f.den : ℚ)

theorem valid_den_ne_zero {f : Frac} (hf : f.Valid) : (f.den : ℚ) ≠ 0 := by
  have h := hf.1
  exact_mod_cast ne_of_gt h

/-- A valid fraction with zero numerator has denominator 1. -/
theorem valid_num_zero {f : Frac} (hf : f.Valid) (h : f.num = 0) : f.den = 1 := by
  have h2 := hf.2
  rw [h, Int.gcd_zero_left] at h2
  have h3 := hf.1
  omega

/-- Exact integer division (in the sense of `tdiv`, matching C++) by a positive
divisor of a positive dividend stays positive. -/
theorem tdiv_pos_of_dvd {a b : Int} (ha : 0 < a) (hb : 0 < b) (h : b ∣ a) : 0 < a.tdiv b := by
  rw [Int.tdiv_eq_ediv_of_dvd h]
  obtain ⟨c, rfl⟩ := h
  rw [Int.mul_ediv_cancel_left _ (ne_of_gt hb)]
  nlinarith

/-- Specification of the `Frac` constructor on success: the result satisfies the
reduced-form invariant and denotes `n / d`. -/
theorem mkFrac_spec {n d : Int} {f : Frac} (h : mkFrac n d = .ok f) :
    f.Valid ∧ f.toRat = (n : ℚ) / (d : ℚ) := by
  by_cases hd : d = 0
  · simp [mkFrac, hd] at h
  · rw [mkFrac, if_neg hd] at h
    simp only [Except.ok.injEq] at h
    set n1 := if d < 0 then -n else n with hn1
    set d1 := if d < 0 then -d else d with hd1
    have hd1pos : 0 < d1 := by rw [hd1]; split <;> omega
    have hg : gcd_abs (if n1 < 0 then -n1 else n1) d1 = (Int.gcd n1 d1 : Int) := by
      rw [gcd_abs_eq]
      unfold Int.gcd
      congr 2
      split <;> simp
    rw [hg] at h
    set g : Int := (Int.gcd n1 d1 : Int) with hgdef
    have hgpos : 0 < g := by
      rw [hgdef]
      have hne : Int.gcd n1 d1 ≠ 0 := by
        rw [Ne, Int.gcd_eq_zero_iff]
        rintro ⟨-, h2⟩
        omega
      omega
    have hdvdn : g ∣ n1 := Int.gcd_dvd_left
    have hdvdd : g ∣ d1 := Int.gcd_dvd_right
    have hnum : f.num = n1.tdiv g := by rw [← h]
    have hden : f.den = d1.tdiv g := by rw [← h]
    have hdenpos : 0 < f.den := hden ▸ tdiv_pos_of_dvd hd1pos hgpos hdvdd
    have hnume : f.num = n1 / g := by rw [hnum]; exact Int.tdiv_eq_ediv_of_dvd hdvdn
    have hdene : f.den = d1 / g := by rw [hden]; exact Int.tdiv_eq_ediv_of_dvd hdvdd
    have hred : Int.gcd f.num f.den = 1 := by
      rw [hnume, hdene, hgdef]
      exact Int.gcd_div_gcd_div_gcd (by omega)
    refine ⟨⟨hdenpos, hred⟩, ?_⟩
    have hgQ : (g : ℚ) ≠ 0 := by exact_mod_cast ne_of_gt hgpos
    obtain ⟨cn, hcn⟩ := hdvdn
    obtain ⟨cd, hcd⟩ := hdvdd
    have hnc : f.num = cn := by
      rw [hnume, hcn, Int.mul_ediv_cancel_left _ (ne_of_gt hgpos)]
    have hdc : f.den = cd := by
      rw [hdene, hcd, Int.mul_ediv_cancel_left _ (ne_of_gt hgpos)]
    have hval : f.toRat = (n1 : ℚ) / (d1 : ℚ) := by
      rw [Frac.toRat, hnc, hdc, hcn, hcd]
      push_cast
      rw [mul_div_mul_left _ _ hgQ]
    rw [hval, hn1, hd1]
    split
    · push_cast
      rw [neg_div_neg_eq]
    · rfl

/-- The constructor succeeds exactly when the denominator is nonzero. -/
theorem mkFrac_ok {n d : Int} (hd : d ≠ 0) : ∃ f, mkFrac n d = .ok f := by
  rw [mkFrac, if_neg hd]
  exact ⟨_, rfl⟩

/-- The constructor on a zero denominator throws `zero denominator`. -/
theorem mkFrac_zero_den (n : Int) : mkFrac n 0 = .error "zero denominator" := by
  simp [mkFrac]

theorem frac_int_valid (v : Int) : Frac.Valid ⟨v, 1⟩ := by
  constructor
  · exact Int.one_pos
  · show Int.gcd v 1 = 1
    unfold Int.gcd
    simp

/-- Canonicity: a valid fraction denoting an integer is that integer over 1. -/
theorem valid_toRat_int {f : Frac} (hf : f.Valid) {z : Int} (h : f.toRat = (z : ℚ)) :
    f.num = z ∧ f.den = 1 := by
  have hden := valid_den_ne_zero hf
  have h1 : (f.num : ℚ) = (z : ℚ) * (f.den : ℚ) := by
    rw [Frac.toRat] at h
    field_simp at h
    exact_mod_cast h
  have h2 : f.num = z * f.den := by exact_mod_cast h1
  have hdvd : f.den ∣ f.num := ⟨z, by rw [h2]; ring⟩
  have h3 : f.den ∣ (Int.gcd f.num f.den : Int) := Int.dvd_gcd hdvd dvd_rfl
  rw [hf.2] at h3
  have h4 : f.den = 1 := by
    have h5 := Int.le_of_dvd one_pos h3
    have h6 := hf.1
    omega
  rw [h4] at h2
  simp only [mul_one] at h2
  exact ⟨h2, h4⟩

/-- Integer-valued constructor calls reduce to the obvious pair. -/
theorem mkFrac_int_one (v : Int) : mkFrac v 1 = .ok ⟨v, 1⟩ := by
  obtain ⟨f, hf⟩ := mkFrac_ok (n := v) (d := 1) one_ne_zero
  obtain ⟨hval, hrat⟩ := mkFrac_spec hf
  have h := valid_toRat_int hval (z := v) (by rw [hrat]; norm_num)
  have hfe : f = ⟨v, 1⟩ := by
    cases f
    simp only [Frac.mk.injEq]
    exact ⟨h.1, h.2⟩
  rw [hf, hfe]

theorem frac_int_toRat (v : Int) : Frac.toRat ⟨v, 1⟩ = (v : ℚ) := by
  simp [Frac.toRat]

/-- Addition of valid fractions succeeds, stays valid and denotes the rational sum. -/
theorem add_ok {a b : Frac} (ha : a.Valid) (hb : b.Valid) :
    ∃ c, a.add b = .ok c ∧ c.Valid ∧ c.toRat = a.toRat + b.toRat := by
  obtain ⟨c, hc⟩ := mkFrac_ok (n := a.num * b.den + b.num * a.den)
    (d := a.den * b.den) (mul_ne_zero (ne_of_gt ha.1) (ne_of_gt hb.1))
  obtain ⟨hval, hrat⟩ := mkFrac_spec hc
  refine ⟨c, hc, hval, ?_⟩
  rw [hrat, Frac.toRat, Frac.toRat]
  have h1 := valid_den_ne_zero ha
  have h2 := valid_den_ne_zero hb
  field_simp
  try ring

/-- Subtraction of valid fractions succeeds, stays valid and denotes the difference. -/
theorem sub_ok {a b : Frac} (ha : a.Valid) (hb : b.Valid) :
    ∃ c, a.sub b = .ok c ∧ c.Valid ∧ c.toRat = a.toRat - b.toRat := by
  obtain ⟨c, hc⟩ := mkFrac_ok (n := a.num * b.den - b.num * a.den)
    (d := a.den * b.den) (mul_ne_zero (ne_of_gt ha.1) (ne_of_gt hb.1))
  obtain ⟨hval, hrat⟩ := mkFrac_spec hc
  refine ⟨c, hc, hval, ?_⟩
  rw [hrat, Frac.toRat, Frac.toRat]
  have h1 := valid_den_ne_zero ha
  have h2 := valid_den_ne_zero hb
  field_simp
  try ring

/-- Multiplication of valid fractions succeeds, stays valid and denotes the product. -/
theorem mul_ok {a b : Frac} (ha : a.Valid) (hb : b.Valid) :
    ∃ c, a.mul b = .ok c ∧ c.Valid ∧ c.toRat = a.toRat * b.toRat := by
  obtain ⟨c, hc⟩ := mkFrac_ok (n := a.num * b.num)
    (d := a.den * b.den) (mul_ne_zero (ne_of_gt ha.1) (ne_of_gt hb.1))
  obtain ⟨hval, hrat⟩ := mkFrac_spec hc
  refine ⟨c, hc, hval, ?_⟩
  rw [hrat, Frac.toRat, Frac.toRat]
  have h1 := valid_den_ne_zero ha
  have h2 := valid_den_ne_zero hb
  field_simp
  try ring

/-- Division of valid fractions by a fraction with nonzero numerator succeeds, stays
valid and denotes the quotient. -/
theorem div_ok {a b : Frac} (ha : a.Valid) (hb : b.Valid) (hnb : b.num ≠ 0) :
    ∃ c, a.div b = .ok c ∧ c.Valid ∧ c.toRat = a.toRat / b.toRat := by
  obtain ⟨c, hc⟩ := mkFrac_ok (n := a.num * b.den)
    (d := a.den * b.num) (mul_ne_zero (ne_of_gt ha.1) hnb)
  refine ⟨c, ?_, ?_⟩
  · rw [Frac.div, if_neg hnb]; exact hc
  obtain ⟨hval, hrat⟩ := mkFrac_spec hc
  refine ⟨hval, ?_⟩
  rw [hrat, Frac.toRat, Frac.toRat]
  have h1 := valid_den_ne_zero ha
  have h2 := valid_den_ne_zero hb
  have h3 : (b.num : ℚ) ≠ 0 := by exact_mod_cast hnb
  field_simp
  try ring

/-- Dividing by a fraction with zero numerator throws `division by zero fraction`. -/
theorem div_zero_num (a b : Frac) (h : b.num = 0) :
    a.div b = .error "division by zero fraction" := by
  simp [Frac.div, h]

/-- A valid fraction denotes zero exactly when its numerator is zero. -/
theorem toRat_eq_zero_iff {f : Frac} (hf : f.Valid) : f.toRat = 0 ↔ f.num = 0 := by
  rw [Frac.toRat, div_eq_zero_iff]
  constructor
  · rintro (h | h)
    · exact_mod_cast h
    · exact absurd h (valid_den_ne_zero hf)
  · intro h; left; exact_mod_cast h

/-! ## Semantics of the Gaussian elimination -/

theorem okOf_ok {e : Except String Frac} {v : Frac} (h : e = .ok v) : okOf e = v := by
  rw [h]; rfl

theorem errOf_none {e : Except String Frac} {v : Frac} (h : e = .ok v) : errOf e = none := by
  rw [h]; rfl

/-- Linear system carried by the first `kk` rows and columns of an augmented matrix,
with the right-hand side in column `kk`. -/
def SolvesAug (kk : Nat) (A : Mat) (x : Nat → ℚ) : Prop :=
  ∀ i, i < kk → (∑ j ∈ Finset.range kk, (A i j).toRat * x j) = (A i kk).toRat

/-- Loop invariant of the elimination after the first `s` steps: all working cells
valid, the first `s` columns already in identity form, and the solution set unchanged
from the initial matrix `A0`. -/
structure ElimInv (kk s : Nat) (A0 A : Mat) : Prop where
  valid : ∀ i j, i < kk → j ≤ kk → (A i j).Valid
  idblock : ∀ j, j < s → ∀ i, i < kk → (A i j).toRat = if i = j then 1 else 0
  equiv : ∀ x, SolvesAug kk A x ↔ SolvesAug kk A0 x

theorem swapRows_fst (A : Mat) (r1 r2 j : Nat) : swapRows A r1 r2 r1 j = A r2 j := by
  unfold swapRows; simp

theorem swapRows_snd (A : Mat) (r1 r2 j : Nat) : swapRows A r1 r2 r2 j = A r1 j := by
  unfold swapRows
  by_cases h : r2 = r1
  · subst h; simp
  · simp [h]

theorem swapRows_other (A : Mat) {r1 r2 i : Nat} (j : Nat) (h1 : i ≠ r1) (h2 : i ≠ r2) :
    swapRows A r1 r2 i j = A i j := by
  unfold swapRows; simp [h1, h2]

/-- Swapping two in-range rows does not change the solution set. -/
theorem solves_swapRows {kk r1 r2 : Nat} (h1 : r1 < kk) (h2 : r2 < kk) (A : Mat) (x : Nat → ℚ) :
    SolvesAug kk (swapRows A r1 r2) x ↔ SolvesAug kk A x := by
  have key : ∀ (C D : Mat), (∀ j, C r1 j = D r2 j) → (∀ j, C r2 j = D r1 j) →
      (∀ i j, i ≠ r1 → i ≠ r2 → C i j = D i j) → SolvesAug kk D x → SolvesAug kk C x := by
    intro C D hr1 hr2 hoth hD i hi
    by_cases e1 : i = r1
    · subst e1
      rw [Finset.sum_congr rfl (fun j _ => by rw [hr1 j]), hr1 kk]
      exact hD r2 h2
    · by_cases e2 : i = r2
      · subst e2
        rw [Finset.sum_congr rfl (fun j _ => by rw [hr2 j]), hr2 kk]
        exact hD r1 h1
      · rw [Finset.sum_congr rfl (fun j _ => by rw [hoth i j e1 e2]), hoth i kk e1 e2]
        exact hD i hi
  constructor
  · exact key A (swapRows A r1 r2) (fun j => (swapRows_snd A r1 r2 j).symm)
      (fun j => (swapRows_fst A r1 r2 j).symm)
      (fun i j hh1 hh2 => (swapRows_other A j hh1 hh2).symm)
  · exact key (swapRows A r1 r2) A (swapRows_fst A r1 r2)
      (swapRows_snd A r1 r2) (fun i j hh1 hh2 => swapRows_other A j hh1 hh2)

theorem sum_sub_mul_aux (kk : Nat) (a b x : Nat → ℚ) (c : ℚ) :
    (∑ j ∈ Finset.range kk, (a j - c * b j) * x j)
      = (∑ j ∈ Finset.range kk, a j * x j) - c * (∑ j ∈ Finset.range kk, b j * x j) := by
  rw [Finset.mul_sum, ← Finset.sum_sub_distrib]
  apply Finset.sum_congr rfl
  intro j _
  ring

/-- Uniformly scaling one in-range row by a nonzero factor preserves the solution set. -/
theorem solves_row_scale {kk r0 : Nat} (hr : r0 < kk) {A B : Mat} {p : ℚ} (hp : p ≠ 0)
    (hrow : ∀ j, j ≤ kk → (B r0 j).toRat = (A r0 j).toRat / p)
    (hoth : ∀ i j, i ≠ r0 → B i j = A i j) (x : Nat → ℚ) :
    SolvesAug kk B x ↔ SolvesAug kk A x := by
  have cancel : ∀ (S b : ℚ), S / p = b / p → S = b := by
    intro S b hS
    field_simp at hS
    exact hS
  constructor
  · intro h i hi
    by_cases e : i = r0
    · subst e
      have hB := h i hr
      rw [Finset.sum_congr rfl
            (fun j hj => by rw [hrow j (le_of_lt (Finset.mem_range.mp hj))]),
          hrow kk le_rfl] at hB
      apply cancel
      rw [Finset.sum_div, ← hB]
      apply Finset.sum_congr rfl
      intro j _
      ring
    · have hB := h i hi
      rw [Finset.sum_congr rfl (fun j _ => by rw [hoth i j e]), hoth i kk e] at hB
      exact hB
  · intro h i hi
    by_cases e : i = r0
    · subst e
      rw [Finset.sum_congr rfl
            (fun j hj => by rw [hrow j (le_of_lt (Finset.mem_range.mp hj))]),
          hrow kk le_rfl]
      rw [← h i hr, Finset.sum_div]
      apply Finset.sum_congr rfl
      intro j _
      ring
    · rw [Finset.sum_congr rfl (fun j _ => by rw [hoth i j e]), hoth i kk e]
      exact h i hi

/-- Subtracting multiples of one in-range row from the others preserves the
solution set. -/
theorem solves_row_sub {kk r0 : Nat} (hr : r0 < kk) {A B : Mat} (f : Nat → ℚ)
    (hoth : ∀ i j, i < kk → i ≠ r0 → j ≤ kk →
      (B i j).toRat = (A i j).toRat - f i * (A r0 j).toRat)
    (hrow : ∀ j, B r0 j = A r0 j) (x : Nat → ℚ) :
    SolvesAug kk B x ↔ SolvesAug kk A x := by
  constructor
  · intro h
    have hr0A : (∑ j ∈ Finset.range kk, (A r0 j).toRat * x j) = (A r0 kk).toRat := by
      have hB := h r0 hr
      rw [Finset.sum_congr rfl (fun j _ => by rw [hrow j]), hrow kk] at hB
      exact hB
    intro i hi
    by_cases e : i = r0
    · subst e; exact hr0A
    · have hB := h i hi
      rw [Finset.sum_congr rfl
            (fun j hj => by rw [hoth i j hi e (le_of_lt (Finset.mem_range.mp hj))]),
          hoth i kk hi e le_rfl, sum_sub_mul_aux, hr0A] at hB
      linarith
  · intro h i hi
    by_cases e : i = r0
    · subst e
      rw [Finset.sum_congr rfl (fun j _ => by rw [hrow j]), hrow kk]
      exact h i hr
    · rw [Finset.sum_congr rfl
            (fun j hj => by rw [hoth i j hi e (le_of_lt (Finset.mem_range.mp hj))]),
          hoth i kk hi e le_rfl, sum_sub_mul_aux, h r0 hr]
      have := h i hi
      linarith

theorem elimCells_mem {kk row col : Nat} {rc : Nat × Nat} (hcol : col ≤ kk)
    (h : rc ∈ elimCells kk row col) :
    rc.1 < kk ∧ rc.1 ≠ row ∧ col ≤ rc.2 ∧ rc.2 ≤ kk := by
  unfold elimCells at h
  rw [List.mem_flatMap] at h
  obtain ⟨r, hr, hmem⟩ := h
  rw [List.mem_range] at hr
  by_cases e : r = row
  · simp [e] at hmem
  · rw [if_neg e, List.mem_map] at hmem
    obtain ⟨c, hc, rfl⟩ := hmem
    rw [List.mem_range'_1] at hc
    exact ⟨hr, e, hc.1, by omega⟩

theorem elimEntry_ok {A : Mat} {row col r c : Nat}
    (hf : (A r col).Valid) (hrowc : (A row c).Valid) (hrc : (A r c).Valid) :
    ∃ v, elimEntry A row col r c = .ok v ∧ v.Valid ∧
      v.toRat = (A r c).toRat - (A r col).toRat * (A row c).toRat := by
  obtain ⟨u, hu, huv, hur⟩ := mul_ok hf hrowc
  obtain ⟨v, hv, hvv, hvr⟩ := sub_ok hrc huv
  refine ⟨v, ?_, hvv, ?_⟩
  · unfold elimEntry
    rw [hu]
    exact hv
  · rw [hvr, hur]

/-- Successful run of the pivot-row normalisation: with a valid row and a valid
nonzero pivot no exception occurs, the targeted cells are divided and everything
else is untouched. -/
theorem rowDivide_ok {A : Mat} {row col kk : Nat} {pivot : Frac}
    (hval : ∀ j, col ≤ j → j ≤ kk → (A row j).Valid)
    (hpv : pivot.Valid) (hpn : pivot.num ≠ 0) :
    ∃ B, rowDivide A row col kk pivot = .ok B
      ∧ (∀ i j, i ≠ row → B i j = A i j)
      ∧ (∀ j, j < col ∨ kk < j → B row j = A row j)
      ∧ (∀ j, col ≤ j → j ≤ kk →
          (B row j).Valid ∧ (B row j).toRat = (A row j).toRat / pivot.toRat) := by
  have hnone : (List.range' col (kk + 1 - col)).findSome?
      (fun c => errOf ((A row c).div pivot)) = none := by
    rw [List.findSome?_eq_none_iff]
    intro c hc
    rw [List.mem_range'_1] at hc
    obtain ⟨v, hv, -, -⟩ := div_ok (hval c hc.1 (by omega)) hpv hpn
    exact errOf_none hv
  refine ⟨fun i j => if i = row ∧ col ≤ j ∧ j ≤ kk then okOf ((A i j).div pivot) else A i j,
    ?_, ?_, ?_, ?_⟩
  · rw [rowDivide, hnone]
  · intro i j hij
    show (if i = row ∧ col ≤ j ∧ j ≤ kk then okOf ((A i j).div pivot) else A i j) = A i j
    rw [if_neg]
    rintro ⟨e, -⟩
    exact hij e
  · intro j hj
    show (if row = row ∧ col ≤ j ∧ j ≤ kk then okOf ((A row j).div pivot) else A row j) = A row j
    rw [if_neg]
    rintro ⟨-, h1, h2⟩
    omega
  · intro j hj1 hj2
    obtain ⟨v, hv, hvv, hvr⟩ := div_ok (hval j hj1 hj2) hpv hpn
    show (if row = row ∧ col ≤ j ∧ j ≤ kk then okOf ((A row j).div pivot) else A row j).Valid
      ∧ (if row = row ∧ col ≤ j ∧ j ≤ kk
          then okOf ((A row j).div pivot) else A row j).toRat = (A row j).toRat / pivot.toRat
    rw [if_pos ⟨rfl, hj1, hj2⟩, okOf_ok hv]
    exact ⟨hvv, hvr⟩

/-- Successful run of the elimination of the pivot column from the other rows: with
valid cells no exception occurs, the targeted cells receive
`A[r][c] - A[r][col] * A[row][c]` in rational value (also when the row is skipped
because its factor is zero), and everything else is untouched. -/
theorem eliminateOthers_ok {A : Mat} {row col kk : Nat}
    (hval : ∀ i j, i < kk → j ≤ kk → (A i j).Valid)
    (hcol : col ≤ kk) (hrowlt : row < kk) :
    ∃ B, eliminateOthers A row col kk = .ok B
      ∧ (∀ j, B row j = A row j)
      ∧ (∀ i j, i ≠ row → ¬ i < kk ∨ j < col ∨ kk < j → B i j = A i j)
      ∧ (∀ i j, i < kk → i ≠ row → col ≤ j → j ≤ kk →
          (B i j).Valid ∧ (B i j).toRat
            = (A i j).toRat - (A i col).toRat * (A row j).toRat) := by
  have hnone : (elimCells kk row col).findSome? (fun rc =>
      if (A rc.1 col).num = 0 then none else errOf (elimEntry A row col rc.1 rc.2)) = none := by
    rw [List.findSome?_eq_none_iff]
    intro rc hrc
    obtain ⟨hb1, hb2, hb3, hb4⟩ := elimCells_mem hcol hrc
    by_cases hz : (A rc.1 col).num = 0
    · rw [if_pos hz]
    · rw [if_neg hz]
      obtain ⟨v, hv, -, -⟩ := elimEntry_ok (hval rc.1 col hb1 hcol)
        (hval row rc.2 hrowlt hb4) (hval rc.1 rc.2 hb1 hb4)
      exact errOf_none hv
  refine ⟨fun i j =>
      if i < kk ∧ i ≠ row ∧ (A i col).num ≠ 0 ∧ col ≤ j ∧ j ≤ kk
      then okOf (elimEntry A row col i j) else A i j, ?_, ?_, ?_, ?_⟩
  · rw [eliminateOthers, hnone]
  · intro j
    show (if row < kk ∧ row ≠ row ∧ (A row col).num ≠ 0 ∧ col ≤ j ∧ j ≤ kk
        then okOf (elimEntry A row col row j) else A row j) = A row j
    rw [if_neg]
    rintro ⟨-, e, -⟩
    exact e rfl
  · intro i j hir hcond
    show (if i < kk ∧ i ≠ row ∧ (A i col).num ≠ 0 ∧ col ≤ j ∧ j ≤ kk
        then okOf (elimEntry A row col i j) else A i j) = A i j
    rw [if_neg]
    rintro ⟨c1, -, -, c4, c5⟩
    rcases hcond with h | h | h
    · exact h c1
    · omega
    · omega
  · intro i j hik hir hj1 hj2
    show (if i < kk ∧ i ≠ row ∧ (A i col).num ≠ 0 ∧ col ≤ j ∧ j ≤ kk
        then okOf (elimEntry A row col i j) else A i j).Valid
      ∧ (if i < kk ∧ i ≠ row ∧ (A i col).num ≠ 0 ∧ col ≤ j ∧ j ≤ kk
          then okOf (elimEntry A row col i j) else A i j).toRat
        = (A i j).toRat - (A i col).toRat * (A row j).toRat
    by_cases hz : (A i col).num = 0
    · have huntouched : (if i < kk ∧ i ≠ row ∧ (A i col).num ≠ 0 ∧ col ≤ j ∧ j ≤ kk
          then okOf (elimEntry A row col i j) else A i j) = A i j := by
        rw [if_neg]
        rintro ⟨-, -, c3, -, -⟩
        exact c3 hz
      rw [huntouched]
      refine ⟨hval i j hik hj2, ?_⟩
      have hzr : (A i col).toRat = 0 := (toRat_eq_zero_iff (hval i col hik hcol)).mpr hz
      rw [hzr]
      ring
    · obtain ⟨v, hv, hvv, hvr⟩ := elimEntry_ok (hval i col hik hcol)
        (hval row j hrowlt hj2) (hval i j hik hj2)
      rw [if_pos ⟨hik, hir, hz, hj1, hj2⟩, okOf_ok hv]
      exact ⟨hvv, hvr⟩

/-- Key step lemma: under the invariant, when the original system has a solution and
solutions are unique, the elimination step never rejects a subset (a pivot always
exists), never throws, and re-establishes the invariant one column further. -/
theorem elimStep_inv {kk s : Nat} {A0 A : Mat} (inv : ElimInv kk s A0 A) (hs : s < kk)
    (hex : ∃ x, SolvesAug kk A0 x)
    (huniq : ∀ x y, SolvesAug kk A0 x → SolvesAug kk A0 y → ∀ j, j < kk → x j = y j) :
    ∃ B, elimStep kk A s = .ok (some B) ∧ ElimInv kk (s + 1) A0 B := by
  cases hfind : (List.range' s (kk - s)).find? (fun r => (A r s).num != 0) with
  | none =>
    exfalso
    rw [List.find?_eq_none] at hfind
    have hzero : ∀ r, s ≤ r → r < kk → (A r s).toRat = 0 := by
      intro r h1 h2
      have hm : r ∈ List.range' s (kk - s) := by
        rw [List.mem_range'_1]; omega
      have hz := hfind r hm
      simp only [bne_iff_ne, ne_eq, not_not] at hz
      exact (toRat_eq_zero_iff (inv.valid r s h2 (le_of_lt hs))).mpr hz
    obtain ⟨x, hx⟩ := hex
    have hxA : SolvesAug kk A x := (inv.equiv x).mpr hx
    have hxt : SolvesAug kk A
        (fun j => x j + (if j = s then 1 else if j < s then -((A j s).toRat) else 0)) := by
      intro i hi
      show (∑ j ∈ Finset.range kk, (A i j).toRat *
          (x j + (if j = s then 1 else if j < s then -((A j s).toRat) else 0)))
        = (A i kk).toRat
      have hsum : (∑ j ∈ Finset.range kk, (A i j).toRat *
            (x j + (if j = s then 1 else if j < s then -((A j s).toRat) else 0)))
          = (∑ j ∈ Finset.range kk, (A i j).toRat * x j)
            + (∑ j ∈ Finset.range kk, (A i j).toRat *
                (if j = s then 1 else if j < s then -((A j s).toRat) else 0)) := by
        rw [← Finset.sum_add_distrib]
        apply Finset.sum_congr rfl
        intro j _
        ring
      have hsub : Finset.range (s + 1) ⊆ Finset.range kk := by
        intro a ha
        rw [Finset.mem_range] at ha ⊢
        omega
      have hout : ∀ j ∈ Finset.range kk, j ∉ Finset.range (s + 1) →
          (A i j).toRat * (if j = s then 1 else if j < s then -((A j s).toRat) else 0) = 0 := by
        intro j hj1 hj2
        rw [Finset.mem_range] at hj1
        rw [Finset.mem_range] at hj2
        rw [if_neg (by omega), if_neg (by omega)]
        ring
      have htzero : (∑ j ∈ Finset.range kk, (A i j).toRat *
          (if j = s then 1 else if j < s then -((A j s).toRat) else 0)) = 0 := by
        rw [← Finset.sum_subset hsub hout, Finset.sum_range_succ, if_pos rfl]
        have hmain : (∑ j ∈ Finset.range s, (A i j).toRat *
            (if j = s then 1 else if j < s then -((A j s).toRat) else 0))
            = ∑ j ∈ Finset.range s, (if i = j then -((A j s).toRat) else 0) := by
          apply Finset.sum_congr rfl
          intro j hj
          rw [Finset.mem_range] at hj
          rw [if_neg (by omega), if_pos hj, inv.idblock j hj i hi]
          split
          · ring
          · ring
        rw [hmain, Finset.sum_ite_eq]
        by_cases his : i < s
        · rw [if_pos (Finset.mem_range.mpr his)]
          ring
        · rw [if_neg (fun hmem => his (Finset.mem_range.mp hmem)),
            hzero i (by omega) hi]
          ring
      rw [hsum, htzero, add_zero]
      exact hxA i hi
    have hxt0 := (inv.equiv _).mp hxt
    have hfin := huniq x _ hx hxt0 s hs
    simp at hfin
  | some sel =>
    have hselP := List.find?_some hfind
    have hselnum : (A sel s).num ≠ 0 := by simpa using hselP
    have hselmem := List.mem_of_find?_eq_some hfind
    rw [List.mem_range'_1] at hselmem
    have hsel1 : s ≤ sel := hselmem.1
    have hsel2 : sel < kk := by omega
    have hA1val : ∀ i j, i < kk → j ≤ kk → ((swapRows A s sel) i j).Valid := by
      intro i j hi hj
      by_cases e1 : i = s
      · rw [e1, swapRows_fst]
        exact inv.valid sel j hsel2 hj
      · by_cases e2 : i = sel
        · rw [e2, swapRows_snd]
          exact inv.valid s j hs hj
        · rw [swapRows_other A j e1 e2]
          exact inv.valid i j hi hj
    have hA1id : ∀ j, j < s → ∀ i, i < kk →
        ((swapRows A s sel) i j).toRat = if i = j then 1 else 0 := by
      intro j hj i hi
      by_cases e1 : i = s
      · rw [e1, swapRows_fst, inv.idblock j hj sel hsel2,
          if_neg (by omega), if_neg (by omega)]
      · by_cases e2 : i = sel
        · rw [e2, swapRows_snd, inv.idblock j hj s hs,
            if_neg (by omega), if_neg (by omega)]
        · rw [swapRows_other A j e1 e2]
          exact inv.idblock j hj i hi
    have hA1equiv : ∀ x, SolvesAug kk (swapRows A s sel) x ↔ SolvesAug kk A x :=
      fun x => solves_swapRows hs hsel2 A x
    have hpivval : ((swapRows A s sel) s s).Valid := hA1val s s hs (le_of_lt hs)
    have hpivnum : ((swapRows A s sel) s s).num ≠ 0 := by
      rw [swapRows_fst]
      exact hselnum
    have hpivQ : ((swapRows A s sel) s s).toRat ≠ 0 :=
      fun hcon => hpivnum ((toRat_eq_zero_iff hpivval).mp hcon)
    obtain ⟨A2, hA2eq, hA2oth, hA2out, hA2row⟩ :=
      @rowDivide_ok (swapRows A s sel) s s kk ((swapRows A s sel) s s)
        (fun j _ h2 => hA1val s j hs h2) hpivval hpivnum
    have hA2val : ∀ i j, i < kk → j ≤ kk → (A2 i j).Valid := by
      intro i j hi hj
      by_cases e : i = s
      · rw [e]
        by_cases hjs : s ≤ j
        · exact (hA2row j hjs hj).1
        · rw [hA2out j (Or.inl (by omega))]
          exact hA1val s j hs hj
      · rw [hA2oth i j e]
        exact hA1val i j hi hj
    have hA2srow : ∀ j, j ≤ kk →
        (A2 s j).toRat = ((swapRows A s sel) s j).toRat / ((swapRows A s sel) s s).toRat := by
      intro j hj
      by_cases hjs : s ≤ j
      · exact (hA2row j hjs hj).2
      · rw [hA2out j (Or.inl (by omega))]
        rw [hA1id j (by omega) s hs, if_neg (by omega)]
        rw [zero_div]
    have hA2equiv : ∀ x, SolvesAug kk A2 x ↔ SolvesAug kk (swapRows A s sel) x :=
      fun x => solves_row_scale hs hpivQ hA2srow hA2oth x
    have hA2id : ∀ j, j < s → ∀ i, i < kk → (A2 i j).toRat = if i = j then 1 else 0 := by
      intro j hj i hi
      by_cases e : i = s
      · rw [e, hA2out j (Or.inl hj)]
        exact hA1id j hj s hs
      · rw [hA2oth i j e]
        exact hA1id j hj i hi
    have hA2ss : (A2 s s).toRat = 1 := by
      rw [(hA2row s le_rfl (le_of_lt hs)).2]
      exact div_self hpivQ
    obtain ⟨A3, hA3eq, hA3row, hA3oth, hA3cells⟩ :=
      @eliminateOthers_ok A2 s s kk hA2val (le_of_lt hs) hs
    refine ⟨A3, ?_, ?_⟩
    · simp only [elimStep, hfind, hA2eq, hA3eq]
    constructor
    · intro i j hi hj
      by_cases e : i = s
      · rw [e, hA3row j]
        exact hA2val s j hs hj
      · by_cases hjs : s ≤ j
        · exact (hA3cells i j hi e hjs hj).1
        · rw [hA3oth i j e (Or.inr (Or.inl (by omega)))]
          exact hA2val i j hi hj
    · intro j hj i hi
      by_cases hjlt : j < s
      · by_cases e : i = s
        · rw [e, hA3row j]
          exact hA2id j hjlt s hs
        · rw [hA3oth i j e (Or.inr (Or.inl hjlt))]
          exact hA2id j hjlt i hi
      · have hjs : j = s := by omega
        rw [hjs]
        by_cases e : i = s
        · rw [e, hA3row s, if_pos rfl]
          exact hA2ss
        · rw [(hA3cells i s hi e le_rfl (le_of_lt hs)).2, hA2ss, if_neg e]
          ring
    · intro x
      have h3 : SolvesAug kk A3 x ↔ SolvesAug kk A2 x := by
        apply solves_row_sub hs (f := fun i => (A2 i s).toRat)
        · intro i j hik hir hj
          by_cases hjs : s ≤ j
          · exact (hA3cells i j hik hir hjs hj).2
          · rw [hA3oth i j hir (Or.inr (Or.inl (by omega)))]
            rw [hA2id j (by omega) s hs, if_neg (by omega)]
            ring
        · exact hA3row
      exact h3.trans ((hA2equiv x).trans ((hA1equiv x).trans (inv.equiv x)))

/-- Iterated elimination maintains the invariant through to column `kk`. -/
theorem elimLoop_inv {kk : Nat} {A0 : Mat}
    (hex : ∃ x, SolvesAug kk A0 x)
    (huniq : ∀ x y, SolvesAug kk A0 x → SolvesAug kk A0 y → ∀ j, j < kk → x j = y j) :
    ∀ (cnt s : Nat) (A : Mat), s + cnt = kk → ElimInv kk s A0 A →
      ∃ B, elimLoop kk (List.range' s cnt) A = .ok (some B) ∧ ElimInv kk kk A0 B := by
  intro cnt
  induction cnt with
  | zero =>
    intro s A heq inv
    have hsk : s = kk := by omega
    exact ⟨A, rfl, hsk ▸ inv⟩
  | succ c ih =>
    intro s A heq inv
    have hs : s < kk := by omega
    obtain ⟨B, hB, invB⟩ := elimStep_inv inv hs hex huniq
    obtain ⟨C, hC, invC⟩ := ih (s + 1) B (by omega) invB
    refine ⟨C, ?_, invC⟩
    rw [List.range'_succ]
    simp only [elimLoop, hB]
    exact hC

/-- Full correctness of the elimination phase: when the initial system has a solution
and solutions are unique, `gaussElim` succeeds (no singular rejection, no exception)
and its augmented column holds the solution. -/
theorem gaussElim_solves {kk : Nat} {A0 : Mat}
    (hval0 : ∀ i j, i < kk → j ≤ kk → (A0 i j).Valid)
    (hex : ∃ x, SolvesAug kk A0 x)
    (huniq : ∀ x y, SolvesAug kk A0 x → SolvesAug kk A0 y → ∀ j, j < kk → x j = y j) :
    ∃ M, gaussElim kk A0 = .ok (some M)
      ∧ (∀ i j, i < kk → j ≤ kk → (M i j).Valid)
      ∧ (∀ x, SolvesAug kk A0 x → ∀ i, i < kk → (M i kk).toRat = x i) := by
  have inv0 : ElimInv kk 0 A0 A0 :=
    ⟨hval0, fun j hj => absurd hj (Nat.not_lt_zero j), fun _ => Iff.rfl⟩
  obtain ⟨M, hM, invM⟩ := elimLoop_inv hex huniq kk 0 A0 (by omega) inv0
  refine ⟨M, ?_, invM.valid, ?_⟩
  · rw [gaussElim, List.range_eq_range']
    exact hM
  · intro x hx i hi
    have hxM : SolvesAug kk M x := (invM.equiv x).mpr hx
    have hrow := hxM i hi
    rw [Finset.sum_congr rfl (fun j hj => by
      rw [invM.idblock j (Finset.mem_range.mp hj) i hi])] at hrow
    have hsum : (∑ j ∈ Finset.range kk, (if i = j then (1 : ℚ) else 0) * x j) = x i := by
      rw [Finset.sum_congr rfl (fun j _ => by
        rw [show (if i = j then (1 : ℚ) else 0) * x j = if i = j then x j else 0 by
          split <;> ring])]
      rw [Finset.sum_ite_eq, if_pos (Finset.mem_range.mpr hi)]
    rw [hsum] at hrow
    exact hrow.symm

/-! ## The Vandermonde system -/

theorem buildMatrix_lt {xs ys : List Int} {i j : Nat} (hi : i < xs.length)
    (hj : j < xs.length) : buildMatrix xs ys i j = ⟨(xs.getD i 0) ^ j, 1⟩ := by
  show (if i < xs.length then
      if j < xs.length then (⟨(xs.getD i 0) ^ j, 1⟩ : Frac)
      else if j = xs.length then ⟨ys.getD i 0, 1⟩ else ⟨0, 1⟩
    else ⟨0, 1⟩) = ⟨(xs.getD i 0) ^ j, 1⟩
  rw [if_pos hi, if_pos hj]

theorem buildMatrix_rhs {xs ys : List Int} {i : Nat} (hi : i < xs.length) :
    buildMatrix xs ys i xs.length = ⟨ys.getD i 0, 1⟩ := by
  show (if i < xs.length then
      if xs.length < xs.length then (⟨(xs.getD i 0) ^ xs.length, 1⟩ : Frac)
      else if xs.length = xs.length then ⟨ys.getD i 0, 1⟩ else ⟨0, 1⟩
    else ⟨0, 1⟩) = ⟨ys.getD i 0, 1⟩
  rw [if_pos hi, if_neg (lt_irrefl xs.length), if_pos rfl]

theorem buildMatrix_valid (xs ys : List Int) :
    ∀ i j, i < xs.length → j ≤ xs.length → (buildMatrix xs ys i j).Valid := by
  intro i j hi hj
  rcases lt_or_eq_of_le hj with h | h
  · rw [buildMatrix_lt hi h]
    exact frac_int_valid _
  · rw [h, buildMatrix_rhs hi]
    exact frac_int_valid _

/-- Over the built matrix, `SolvesAug` states exactly the polynomial-evaluation
constraints of the Vandermonde system. -/
theorem solvesAug_build_iff (xs ys : List Int) (x : Nat → ℚ) :
    SolvesAug xs.length (buildMatrix xs ys) x ↔
      ∀ i, i < xs.length →
        (∑ j ∈ Finset.range xs.length, ((xs.getD i 0 : ℚ)) ^ j * x j)
          = (ys.getD i 0 : ℚ) := by
  unfold SolvesAug
  refine forall_congr' (fun i => ?_)
  refine imp_congr_right (fun hi => ?_)
  rw [buildMatrix_rhs hi, frac_int_toRat]
  have hc : ∀ j : Nat, ((xs.getD i 0 ^ j : Int) : ℚ) = ((xs.getD i 0 : ℚ)) ^ j := by
    intro j
    push_cast
    ring
  rw [Finset.sum_congr rfl (fun j hj => by
    rw [buildMatrix_lt hi (Finset.mem_range.mp hj), frac_int_toRat, hc j])]

/-- Existence and uniqueness of the rational solution of a Vandermonde system with
pairwise-distinct nodes. -/
theorem vandermonde_exists_uniq (xs : List Int) (hnd : xs.Nodup) (yv : Nat → ℚ) :
    (∃ x : Nat → ℚ, ∀ i, i < xs.length →
        (∑ j ∈ Finset.range xs.length, ((xs.getD i 0 : ℚ)) ^ j * x j) = yv i)
    ∧ (∀ x y : Nat → ℚ,
        (∀ i, i < xs.length →
          (∑ j ∈ Finset.range xs.length, ((xs.getD i 0 : ℚ)) ^ j * x j) = yv i) →
        (∀ i, i < xs.length →
          (∑ j ∈ Finset.range xs.length, ((xs.getD i 0 : ℚ)) ^ j * y j) = yv i) →
        ∀ j, j < xs.length → x j = y j) := by
  have hvd : (Matrix.vandermonde (fun i : Fin xs.length => (xs.get i : ℚ))).det ≠ 0 := by
    rw [Matrix.det_vandermonde]
    rw [Finset.prod_ne_zero_iff]
    intro i _
    rw [Finset.prod_ne_zero_iff]
    intro j hj
    rw [Finset.mem_Ioi] at hj
    have hne : xs.get j ≠ xs.get i := by
      intro hcon
      have := (List.Nodup.get_inj_iff hnd).mp hcon
      rw [this] at hj
      exact lt_irrefl _ hj
    exact sub_ne_zero_of_ne (by exact_mod_cast hne)
  have hunit : IsUnit (Matrix.vandermonde (fun i : Fin xs.length => (xs.get i : ℚ))).det :=
    isUnit_iff_ne_zero.mpr hvd
  have hbridge : ∀ (x : Nat → ℚ) (i : Fin xs.length),
      (Matrix.vandermonde (fun r : Fin xs.length => (xs.get r : ℚ))).mulVec
          (fun j : Fin xs.length => x j.val) i
        = ∑ j ∈ Finset.range xs.length, ((xs.getD i.val 0 : ℚ)) ^ j * x j := by
    intro x i
    show (∑ j : Fin xs.length,
        Matrix.vandermonde (fun r : Fin xs.length => (xs.get r : ℚ)) i j * x j.val)
      = ∑ j ∈ Finset.range xs.length, ((xs.getD i.val 0 : ℚ)) ^ j * x j
    rw [← Fin.sum_univ_eq_sum_range (fun j => ((xs.getD i.val 0 : ℚ)) ^ j * x j) xs.length]
    apply Finset.sum_congr rfl
    intro j _
    rw [Matrix.vandermonde_apply]
    have hgd : xs.get i = xs.getD i.val 0 := by
      rw [List.get_eq_getElem, List.getD_eq_getElem xs 0 i.isLt]
    rw [hgd]
  constructor
  · refine ⟨fun j => if h : j < xs.length then
      (Matrix.vandermonde (fun r : Fin xs.length => (xs.get r : ℚ)))⁻¹.mulVec
        (fun r : Fin xs.length => yv r.val) ⟨j, h⟩ else 0, ?_⟩
    intro i hi
    have hfun : (fun j : Fin xs.length => (if h : (j : Nat) < xs.length then
        (Matrix.vandermonde (fun r : Fin xs.length => (xs.get r : ℚ)))⁻¹.mulVec
          (fun r : Fin xs.length => yv r.val) ⟨j, h⟩ else 0))
        = (Matrix.vandermonde (fun r : Fin xs.length => (xs.get r : ℚ)))⁻¹.mulVec
            (fun r : Fin xs.length => yv r.val) := by
      funext j
      rw [dif_pos j.isLt]
    rw [← hbridge _ ⟨i, hi⟩, hfun, Matrix.mulVec_mulVec,
      Matrix.mul_nonsing_inv _ hunit, Matrix.one_mulVec]
  · intro x y hx hy j hj
    have hxv : (Matrix.vandermonde (fun r : Fin xs.length => (xs.get r : ℚ))).mulVec
        (fun r : Fin xs.length => x r.val) = (fun r : Fin xs.length => yv r.val) := by
      funext i
      rw [hbridge]
      exact hx i.val i.isLt
    have hyv : (Matrix.vandermonde (fun r : Fin xs.length => (xs.get r : ℚ))).mulVec
        (fun r : Fin xs.length => y r.val) = (fun r : Fin xs.length => yv r.val) := by
      funext i
      rw [hbridge]
      exact hy i.val i.isLt
    have hinj : (fun r : Fin xs.length => x r.val) = (fun r : Fin xs.length => y r.val) := by
      have h1 := congrArg
        ((Matrix.vandermonde (fun r : Fin xs.length => (xs.get r : ℚ)))⁻¹.mulVec) hxv
      have h2 := congrArg
        ((Matrix.vandermonde (fun r : Fin xs.length => (xs.get r : ℚ)))⁻¹.mulVec) hyv
      rw [Matrix.mulVec_mulVec, Matrix.nonsing_inv_mul _ hunit, Matrix.one_mulVec] at h1 h2
      rw [h1, h2]
    exact congrFun hinj ⟨j, hj⟩

/-- Master lemma for distinct nodes: on pairwise-distinct x-coordinates the
elimination phase never hits the singular branch and never throws, and the extracted
coefficients denote the unique solution of the Vandermonde system. -/
theorem gaussElim_build (xs ys : List Int) (hnd : xs.Nodup) :
    ∃ M, gaussElim xs.length (buildMatrix xs ys) = .ok (some M)
      ∧ (∀ i j, i < xs.length → j ≤ xs.length → (M i j).Valid)
      ∧ (∀ x, SolvesAug xs.length (buildMatrix xs ys) x →
          ∀ i, i < xs.length → (M i xs.length).toRat = x i) := by
  obtain ⟨hex0, huniq0⟩ := vandermonde_exists_uniq xs hnd (fun i => (ys.getD i 0 : ℚ))
  apply gaussElim_solves (buildMatrix_valid xs ys)
  · obtain ⟨x, hx⟩ := hex0
    exact ⟨x, (solvesAug_build_iff xs ys x).mpr hx⟩
  · intro x y hx hy
    exact huniq0 x y ((solvesAug_build_iff xs ys x).mp hx)
      ((solvesAug_build_iff xs ys y).mp hy)

/-- On distinct nodes, `solve_coeffs` always reaches the coefficient extraction. -/
theorem solve_coeffs_ok (xs ys : List Int) (hnd : xs.Nodup) :
    ∃ out, solve_coeffs xs ys = .ok (some out) := by
  obtain ⟨M, hM, -, -⟩ := gaussElim_build xs ys hnd
  refine ⟨(List.range xs.length).map (fun i => M i xs.length), ?_⟩
  simp only [solve_coeffs, hM]

/-! ## Enumeration facts -/

theorem masks_nil : ∀ n k, n < k → masks n k = [] := by
  intro n
  induction n with
  | zero =>
    intro k hk
    match k, hk with
    | k + 1, _ => rfl
  | succ m ih =>
    intro k hk
    match k, hk with
    | k + 1, hk =>
      show (masks m k).map (fun mk => 1 :: mk) ++ (masks m (k + 1)).map (fun mk => 0 :: mk) = []
      rw [ih k (by omega), ih (k + 1) (by omega)]
      rfl

theorem masks_self : ∀ k, masks k k = [List.replicate k 1] := by
  intro k
  induction k with
  | zero => rfl
  | succ m ih =>
    show (masks m m).map (fun mk => 1 :: mk) ++ (masks m (m + 1)).map (fun mk => 0 :: mk)
      = [List.replicate (m + 1) 1]
    rw [ih, masks_nil m (m + 1) (by omega), List.replicate_succ]
    rfl

theorem subsetOf_replicate : ∀ (l : List Int), subsetOf (List.replicate l.length 1) l = l := by
  intro l
  induction l with
  | nil => rfl
  | cons a t ih =>
    show subsetOf (List.replicate (t.length + 1) 1) (a :: t) = a :: t
    rw [List.replicate_succ]
    unfold subsetOf at ih ⊢
    rw [List.zip_cons_cons, List.filter_cons_of_pos (by rfl), List.map_cons, ih]

theorem subsetOf_replicate_len {k : Nat} {l : List Int} (h : l.length = k) :
    subsetOf (List.replicate k 1) l = l := by
  rw [← h]
  exact subsetOf_replicate l

/-- Evaluation of the polynomial with coefficient list `c` (ascending degree, `c_0`
the constant term) — the reference semantics in which the spec states the
reconstruction property. -/
def evalPoly (c : List Int) (x : Int) : Int :=
  ∑ j ∈ Finset.range c.length, c.getD j 0 * x ^ j

/-- Full reconstruction: feeding the evaluations of an integer-coefficient polynomial
at `k` distinct nodes into the search with threshold `k` returns the constant term. -/
theorem reconstruction (k : Nat) (hk : 1 ≤ k) (c xs : List Int)
    (hc : c.length = k) (hxs : xs.length = k) (hnd : xs.Nodup) :
    find_valid_constant xs (xs.map (evalPoly c)) k = .ok (some (c.getD 0 0)) := by
  have hys : ∀ i, i < xs.length →
      (xs.map (evalPoly c)).getD i 0 = evalPoly c (xs.getD i 0) := by
    intro i hi
    have h1 : i < (xs.map (evalPoly c)).length := by
      rw [List.length_map]
      exact hi
    rw [List.getD_eq_getElem _ _ h1, List.getD_eq_getElem _ _ hi, List.getElem_map]
  have hsol : SolvesAug xs.length (buildMatrix xs (xs.map (evalPoly c)))
      (fun j => (c.getD j 0 : ℚ)) := by
    rw [solvesAug_build_iff]
    intro i hi
    rw [hys i hi]
    show (∑ j ∈ Finset.range xs.length, ((xs.getD i 0 : ℚ)) ^ j * ((c.getD j 0 : ℚ)))
      = ((evalPoly c (xs.getD i 0) : Int) : ℚ)
    simp only [evalPoly]
    push_cast
    rw [show c.length = xs.length by omega]
    apply Finset.sum_congr rfl
    intro j _
    ring
  obtain ⟨M, hM, hMval, hMsol⟩ := gaussElim_build xs (xs.map (evalPoly c)) hnd
  have hcoeff : ∀ i, i < xs.length → M i xs.length = ⟨c.getD i 0, 1⟩ := by
    intro i hi
    obtain ⟨hn, hd⟩ := valid_toRat_int (hMval i xs.length hi le_rfl) (hMsol _ hsol i hi)
    show M i xs.length = _
    calc M i xs.length = ⟨(M i xs.length).num, (M i xs.length).den⟩ := rfl
    _ = ⟨c.getD i 0, 1⟩ := by rw [hn, hd]
  have hsc : solve_coeffs xs (xs.map (evalPoly c))
      = .ok (some ((List.range xs.length).map (fun i => M i xs.length))) := by
    simp only [solve_coeffs, hM]
  have hout : (List.range xs.length).map (fun i => M i xs.length)
      = (List.range xs.length).map (fun i => (⟨c.getD i 0, 1⟩ : Frac)) := by
    apply List.map_congr_left
    intro i hi
    exact hcoeff i (List.mem_range.mp hi)
  have hall : ((List.range xs.length).map (fun i => M i xs.length)).all Frac.isInteger
      = true := by
    rw [List.all_eq_true]
    intro f hf
    rw [hout, List.mem_map] at hf
    obtain ⟨i, -, rfl⟩ := hf
    rfl
  have hip : interpolate_and_check xs (xs.map (evalPoly c))
      = .ok (some ((List.range xs.length).map (fun i => M i xs.length))) := by
    simp only [interpolate_and_check, hsc]
    rw [if_pos hall]
  have hmask : masks xs.length k = [List.replicate k 1] := by
    rw [hxs]
    exact masks_self k
  have hsx : subsetOf (List.replicate k 1) xs = xs := subsetOf_replicate_len hxs
  have hsy : subsetOf (List.replicate k 1) (xs.map (evalPoly c)) = xs.map (evalPoly c) :=
    subsetOf_replicate_len (by rw [List.length_map]; exact hxs)
  have hhead : ((List.range xs.length).map (fun i => M i xs.length)).headI
      = (⟨c.getD 0 0, 1⟩ : Frac) := by
    rw [hout, hxs]
    obtain ⟨m, rfl⟩ : ∃ m, k = m + 1 := ⟨k - 1, by omega⟩
    rw [List.range_succ_eq_map, List.map_cons]
    rfl
  simp only [find_valid_constant]
  rw [if_neg (by omega), hmask]
  simp only [fvc_loop, hsx, hsy, hip, hhead]

/-- Indices selected by a mask (positions of its nonzero entries, ascending) — the
"index membership" view of a subset-selection mask. -/
def indicesOf : List Nat → List Nat
  | [] => []
  | b :: t => if b ≠ 0 then 0 :: (indicesOf t).map (· + 1) else (indicesOf t).map (· + 1)

theorem indicesOf_cons_one (t : List Nat) :
    indicesOf (1 :: t) = 0 :: (indicesOf t).map (· + 1) := by
  show (if (1 : Nat) ≠ 0 then 0 :: (indicesOf t).map (· + 1) else (indicesOf t).map (· + 1)) = _
  rw [if_pos (by omega)]

theorem indicesOf_cons_zero (t : List Nat) :
    indicesOf (0 :: t) = (indicesOf t).map (· + 1) := by
  show (if (0 : Nat) ≠ 0 then 0 :: (indicesOf t).map (· + 1) else (indicesOf t).map (· + 1)) = _
  rw [if_neg (by omega)]

theorem indicesOf_replicate_zero : ∀ n, indicesOf (List.replicate n 0) = [] := by
  intro n
  induction n with
  | zero => rfl
  | succ m ih => rw [List.replicate_succ, indicesOf_cons_zero, ih]; rfl

theorem lex_map_succ {l1 l2 : List Nat} (h : List.Lex (· < ·) l1 l2) :
    List.Lex (· < ·) (l1.map (· + 1)) (l2.map (· + 1)) := by
  induction h with
  | nil => exact List.Lex.nil
  | rel hr => exact List.Lex.rel (Nat.add_lt_add_right hr 1)
  | cons _ ih => exact List.Lex.cons ih

theorem lex_irrefl_nat : ∀ l : List Nat, ¬ List.Lex (· < ·) l l := by
  intro l
  induction l with
  | nil => intro h; cases h
  | cons a t ih =>
    intro h
    cases h with
    | rel hr => exact absurd hr (lt_irrefl a)
    | cons ht => exact ih ht

theorem masks_zero : ∀ n, masks n 0 = [List.replicate n 0] := by
  intro n
  induction n with
  | zero => rfl
  | succ m ih =>
    show (masks m 0).map (fun mk => 0 :: mk) = _
    rw [ih, List.replicate_succ]
    rfl

theorem masks_length : ∀ n k, (masks n k).length = n.choose k := by
  intro n
  induction n with
  | zero =>
    intro k
    cases k with
    | zero => rfl
    | succ j => rfl
  | succ m ih =>
    intro k
    cases k with
    | zero =>
      show ((masks m 0).map (fun mk => 0 :: mk)).length = (m + 1).choose 0
      rw [List.length_map, ih 0, Nat.choose_zero_right, Nat.choose_zero_right]
    | succ j =>
      show (((masks m j).map (fun mk => 1 :: mk))
        ++ ((masks m (j + 1)).map (fun mk => 0 :: mk))).length = (m + 1).choose (j + 1)
      rw [List.length_append, List.length_map, List.length_map, ih j, ih (j + 1),
        Nat.choose_succ_succ]

theorem masks_indices_ne_nil : ∀ n k m, m ∈ masks n (k + 1) → indicesOf m ≠ [] := by
  intro n
  induction n with
  | zero =>
    intro k m hm
    exact absurd hm (List.not_mem_nil m)
  | succ nn ih =>
    intro k m hm
    rw [show masks (nn + 1) (k + 1) = ((masks nn k).map (fun mk => 1 :: mk))
        ++ ((masks nn (k + 1)).map (fun mk => 0 :: mk)) from rfl,
      List.mem_append] at hm
    rcases hm with hm | hm <;> rw [List.mem_map] at hm
    · obtain ⟨t, -, rfl⟩ := hm
      rw [indicesOf_cons_one]
      exact List.cons_ne_nil 0 _
    · obtain ⟨t, ht, rfl⟩ := hm
      rw [indicesOf_cons_zero]
      intro hcon
      exact ih k t ht (List.map_eq_nil_iff.mp hcon)

/-- The masks are enumerated in strictly increasing lexicographic order of their
selected index sets. -/
theorem masks_sorted : ∀ n k, (masks n k).Pairwise
    (fun a b => List.Lex (· < ·) (indicesOf a) (indicesOf b)) := by
  intro n
  induction n with
  | zero =>
    intro k
    cases k with
    | zero => exact List.pairwise_singleton _ _
    | succ j => exact List.Pairwise.nil
  | succ m ih =>
    intro k
    cases k with
    | zero =>
      rw [masks_zero]
      exact List.pairwise_singleton _ _
    | succ j =>
      show (((masks m j).map (fun mk => 1 :: mk))
        ++ ((masks m (j + 1)).map (fun mk => 0 :: mk))).Pairwise _
      rw [List.pairwise_append]
      refine ⟨?_, ?_, ?_⟩
      · rw [List.pairwise_map]
        apply List.Pairwise.imp ?_ (ih j)
        intro a b hab
        rw [indicesOf_cons_one, indicesOf_cons_one]
        exact List.Lex.cons (lex_map_succ hab)
      · rw [List.pairwise_map]
        apply List.Pairwise.imp ?_ (ih (j + 1))
        intro a b hab
        rw [indicesOf_cons_zero, indicesOf_cons_zero]
        exact lex_map_succ hab
      · intro a ha b hb
        rw [List.mem_map] at ha hb
        obtain ⟨ta, -, rfl⟩ := ha
        obtain ⟨tb, htb, rfl⟩ := hb
        rw [indicesOf_cons_one, indicesOf_cons_zero]
        cases hcase : indicesOf tb with
        | nil => exact absurd hcase (masks_indices_ne_nil m j tb htb)
        | cons h t => exact List.Lex.rel (Nat.succ_pos h)

theorem masks_nodup (n k : Nat) : (masks n k).Nodup := by
  apply List.Pairwise.imp ?_ (masks_sorted n k)
  intro a b hab heq
  rw [heq] at hab
  exact lex_irrefl_nat _ hab

/-- Every enumerated mask is a 0/1 vector of length `n` selecting exactly `k`
indices. -/
theorem masks_shape : ∀ n k m, m ∈ masks n k →
    m.length = n ∧ (∀ b ∈ m, b = 0 ∨ b = 1) ∧ (indicesOf m).length = k := by
  intro n
  induction n with
  | zero =>
    intro k m hm
    cases k with
    | zero =>
      rw [show masks 0 0 = [[]] from rfl, List.mem_singleton] at hm
      subst hm
      refine ⟨rfl, ?_, rfl⟩
      intro b hb
      cases hb
    | succ j => exact absurd hm (List.not_mem_nil m)
  | succ nn ih =>
    intro k m hm
    cases k with
    | zero =>
      rw [masks_zero, List.mem_singleton] at hm
      subst hm
      refine ⟨List.length_replicate .., ?_, ?_⟩
      · intro b hb
        left
        exact List.eq_of_mem_replicate hb
      · rw [indicesOf_replicate_zero]
        rfl
    | succ j =>
      rw [show masks (nn + 1) (j + 1) = ((masks nn j).map (fun mk => 1 :: mk))
          ++ ((masks nn (j + 1)).map (fun mk => 0 :: mk)) from rfl,
        List.mem_append] at hm
      rcases hm with hm | hm <;> rw [List.mem_map] at hm
      · obtain ⟨t, ht, rfl⟩ := hm
        obtain ⟨h1, h2, h3⟩ := ih j t ht
        refine ⟨by rw [List.length_cons, h1], ?_, ?_⟩
        · intro b hb
          rcases List.mem_cons.mp hb with rfl | hb
          · right; rfl
          · exact h2 b hb
        · rw [indicesOf_cons_one, List.length_cons, List.length_map, h3]
      · obtain ⟨t, ht, rfl⟩ := hm
        obtain ⟨h1, h2, h3⟩ := ih (j + 1) t ht
        refine ⟨by rw [List.length_cons, h1], ?_, ?_⟩
        · intro b hb
          rcases List.mem_cons.mp hb with rfl | hb
          · left; rfl
          · exact h2 b hb
        · rw [indicesOf_cons_zero, List.length_map, h3]

/-- The search loop returns the first accepted subset's constant, regardless of what
comes after it in the enumeration (no later subset is examined). -/
theorem fvc_loop_first {xs ys : List Int} :
    ∀ (ms1 : List (List Nat)) (m : List Nat) (coeffs : List Frac),
      (∀ m2 ∈ ms1, interpolate_and_check (subsetOf m2 xs) (subsetOf m2 ys) = .ok none) →
      interpolate_and_check (subsetOf m xs) (subsetOf m ys) = .ok (some coeffs) →
      ∀ ms2, fvc_loop xs ys (ms1 ++ m :: ms2) = .ok (some coeffs.headI.num) := by
  intro ms1
  induction ms1 with
  | nil =>
    intro m coeffs _ hsucc ms2
    rw [List.nil_append]
    simp only [fvc_loop, hsucc]
  | cons a t ih =>
    intro m coeffs hfail hsucc ms2
    have ha := hfail a (List.mem_cons_self a t)
    show fvc_loop xs ys (a :: (t ++ m :: ms2)) = _
    simp only [fvc_loop, ha]
    exact ih m coeffs (fun m2 hm2 => hfail m2 (List.mem_cons_of_mem a hm2)) hsucc ms2

/-- When every enumerated subset is rejected, the search loop reports failure. -/
theorem fvc_loop_none {xs ys : List Int} :
    ∀ ms : List (List Nat),
      (∀ m ∈ ms, interpolate_and_check (subsetOf m xs) (subsetOf m ys) = .ok none) →
      fvc_loop xs ys ms = .ok none := by
  intro ms
  induction ms with
  | nil => intro _; rfl
  | cons a t ih =>
    intro hfail
    have ha := hfail a (List.mem_cons_self a t)
    simp only [fvc_loop, ha]
    exact ih (fun m2 hm2 => hfail m2 (List.mem_cons_of_mem a hm2))

/-! ## Claims -/

/-- C1: for every threshold `k ≥ 1`, every polynomial with integer coefficients
`c_0..c_{k-1}`, and every choice of `k` pairwise-distinct x-coordinates, evaluating
the polynomial at those x-coordinates and running `find_valid_constant` on the
resulting `k` points with threshold `k` succeeds and returns exactly `c_0`. -/
theorem C1_exact_reconstruction (k : Nat) (hk : 1 ≤ k) (c xs : List Int)
    (hc : c.length = k) (hxs : xs.length = k) (hnd : xs.Nodup) :
    find_valid_constant xs (xs.map (evalPoly c)) k = .ok (some (c.getD 0 0)) :=
  reconstruction k hk c xs hc hxs hnd

theorem C1_witness :
    1 ≤ 2 ∧ ([3, 5] : List Int).length = 2 ∧ ([1, 2] : List Int).length = 2
    ∧ ([1, 2] : List Int).Nodup
    ∧ find_valid_constant [1, 2] ([1, 2].map (evalPoly [3, 5])) 2
        = .ok (some (([3, 5] : List Int).getD 0 0)) :=
  ⟨by decide, by decide, by decide, by decide,
    C1_exact_reconstruction 2 (by decide) [3, 5] [1, 2] (by decide) (by decide) (by decide)⟩

/-- C2: `find_valid_constant` enumerates the `C(n,k)` size-`k` subsets of the `n`
points in a fixed, deterministic lexicographic order over index membership (the mask
list has length `C(n,k)`, no duplicates, every mask selects exactly `k` of `n`
indices, and the selected index lists are strictly increasing lexicographically);
the search returns the constant-term coefficient of the first subset whose validation
succeeds — its result does not depend on the masks after the first accepted one, so
no later subset is examined — and returns the failure outcome (`return false`,
`NoConsistentSubset`) when no subset validates. -/
theorem C2_subset_enumeration (n k : Nat) (xs ys : List Int)
    (hn : xs.length = n) (hk : k ≤ n) :
    (masks n k).length = n.choose k
    ∧ (masks n k).Nodup
    ∧ (∀ m ∈ masks n k, m.length = n ∧ (∀ b ∈ m, b = 0 ∨ b = 1) ∧ (indicesOf m).length = k)
    ∧ (masks n k).Pairwise (fun a b => List.Lex (· < ·) (indicesOf a) (indicesOf b))
    ∧ (∀ ms1 m ms2 coeffs, masks n k = ms1 ++ m :: ms2 →
        (∀ m2 ∈ ms1, interpolate_and_check (subsetOf m2 xs) (subsetOf m2 ys) = .ok none) →
        interpolate_and_check (subsetOf m xs) (subsetOf m ys) = .ok (some coeffs) →
        find_valid_constant xs ys k = .ok (some coeffs.headI.num)
          ∧ ∀ ms2b, fvc_loop xs ys (ms1 ++ m :: ms2b) = .ok (some coeffs.headI.num))
    ∧ ((∀ m ∈ masks n k, interpolate_and_check (subsetOf m xs) (subsetOf m ys) = .ok none) →
        find_valid_constant xs ys k = .ok none) := by
  refine ⟨masks_length n k, masks_nodup n k, masks_shape n k, masks_sorted n k, ?_, ?_⟩
  · intro ms1 m ms2 coeffs hsplit hfail hsucc
    constructor
    · simp only [find_valid_constant]
      rw [if_neg (by omega), hn, hsplit]
      exact fvc_loop_first ms1 m coeffs hfail hsucc ms2
    · intro ms2b
      exact fvc_loop_first ms1 m coeffs hfail hsucc ms2b
  · intro hall
    simp only [find_valid_constant]
    rw [if_neg (by omega), hn]
    exact fvc_loop_none _ hall

theorem C2_witness :
    (masks 4 3).length = Nat.choose 4 3
    ∧ find_valid_constant [1, 2, 3, 4] [5, 8, 13, 20] 3
        = .ok (some (([(⟨4, 1⟩ : Frac), ⟨0, 1⟩, ⟨1, 1⟩]).headI.num)) := by
  have h := C2_subset_enumeration 4 3 [1, 2, 3, 4] [5, 8, 13, 20] (by decide) (by decide)
  refine ⟨h.1, ?_⟩
  have h5 := h.2.2.2.2.1 [] [1, 1, 1, 0] [[1, 1, 0, 1], [1, 0, 1, 1], [0, 1, 1, 1]]
    [⟨4, 1⟩, ⟨0, 1⟩, ⟨1, 1⟩] (by decide)
    (by intro m2 hm2; exact absurd hm2 (List.not_mem_nil m2)) (by decide)
  exact h5.1

/-- C3: once the elimination has produced coefficients (a nonsingular subset),
`interpolate_and_check` accepts exactly when every solved coefficient has
denominator 1 after reduction, and any subset with a non-integer coefficient is
rejected. -/
theorem C3_acceptance_iff_integrality (xs ys : List Int) (out : List Frac)
    (h : solve_coeffs xs ys = .ok (some out)) :
    (interpolate_and_check xs ys = .ok (some out) ↔ ∀ f ∈ out, f.den = 1)
    ∧ ((∃ f ∈ out, f.den ≠ 1) → interpolate_and_check xs ys = .ok none) := by
  have hiff : out.all Frac.isInteger = true ↔ ∀ f ∈ out, f.den = 1 := by
    rw [List.all_eq_true]
    refine forall_congr' (fun f => imp_congr_right (fun _ => ?_))
    show (f.den == 1) = true ↔ f.den = 1
    exact beq_iff_eq
  by_cases hall : out.all Frac.isInteger = true
  · have hi : interpolate_and_check xs ys = .ok (some out) := by
      simp only [interpolate_and_check, h]
      rw [if_pos hall]
    refine ⟨⟨fun _ => hiff.mp hall, fun _ => hi⟩, ?_⟩
    rintro ⟨f, hf, hfden⟩
    exact absurd (hiff.mp hall f hf) hfden
  · have hi : interpolate_and_check xs ys = .ok none := by
      simp only [interpolate_and_check, h]
      rw [if_neg hall]
    refine ⟨⟨fun hcon => ?_, fun hden => absurd (hiff.mpr hden) hall⟩, fun _ => hi⟩
    rw [hi] at hcon
    simp at hcon

theorem C3_witness :
    solve_coeffs [1, 3] [0, 1] = .ok (some [(⟨-1, 2⟩ : Frac), ⟨1, 2⟩])
    ∧ interpolate_and_check [1, 3] [0, 1] = .ok none := by
  have hsc : solve_coeffs [1, 3] [0, 1] = .ok (some [(⟨-1, 2⟩ : Frac), ⟨1, 2⟩]) := by decide
  exact ⟨hsc, (C3_acceptance_iff_integrality [1, 3] [0, 1] _ hsc).2
    ⟨⟨-1, 2⟩, by decide, by decide⟩⟩

/-- C4: every `Frac` produced by the constructor or by the add, subtract, multiply or
divide operators satisfies `gcd(|num|, den) = 1` and `den > 0` (the sign is carried
entirely by the numerator), and a zero numerator forces denominator 1. -/
theorem C4_reduced_invariant :
    (∀ n d f, mkFrac n d = .ok f →
      0 < f.den ∧ Int.gcd f.num f.den = 1 ∧ (f.num = 0 → f.den = 1))
    ∧ (∀ a b f, Frac.add a b = .ok f →
      0 < f.den ∧ Int.gcd f.num f.den = 1 ∧ (f.num = 0 → f.den = 1))
    ∧ (∀ a b f, Frac.sub a b = .ok f →
      0 < f.den ∧ Int.gcd f.num f.den = 1 ∧ (f.num = 0 → f.den = 1))
    ∧ (∀ a b f, Frac.mul a b = .ok f →
      0 < f.den ∧ Int.gcd f.num f.den = 1 ∧ (f.num = 0 → f.den = 1))
    ∧ (∀ a b f, Frac.div a b = .ok f →
      0 < f.den ∧ Int.gcd f.num f.den = 1 ∧ (f.num = 0 → f.den = 1)) := by
  have base : ∀ n d f, mkFrac n d = .ok f →
      0 < f.den ∧ Int.gcd f.num f.den = 1 ∧ (f.num = 0 → f.den = 1) := by
    intro n d f h
    obtain ⟨hv, -⟩ := mkFrac_spec h
    exact ⟨hv.1, hv.2, fun hz => valid_num_zero hv hz⟩
  refine ⟨base, ?_, ?_, ?_, ?_⟩
  · intro a b f h
    exact base _ _ f h
  · intro a b f h
    exact base _ _ f h
  · intro a b f h
    exact base _ _ f h
  · intro a b f h
    rw [Frac.div] at h
    by_cases hb : b.num = 0
    · rw [if_pos hb] at h
      exact Except.noConfusion h
    · rw [if_neg hb] at h
      exact base _ _ f h

theorem C4_witness :
    mkFrac 6 (-4) = .ok ⟨-3, 2⟩ ∧ 0 < (⟨-3, 2⟩ : Frac).den
    ∧ Int.gcd (⟨-3, 2⟩ : Frac).num (⟨-3, 2⟩ : Frac).den = 1 := by
  have h1 : mkFrac 6 (-4) = .ok ⟨-3, 2⟩ := by decide
  have h2 := C4_reduced_invariant.1 6 (-4) ⟨-3, 2⟩ h1
  exact ⟨h1, h2.1, h2.2.1⟩

/-- C5: evidence for the divergence between the claim and the code — a batch whose
first record holds an invalid digit for its base aborts with the uncaught
`digit >= base in parse_in_base_cpp` exception, so the well-formed second record is
never processed, although that record alone produces the constant 5. -/
theorem C5_malformed_record_aborts_batch :
    process_batch [⟨1, 1, [⟨1, 2, "9"⟩]⟩, ⟨1, 1, [⟨1, 10, "5"⟩]⟩]
        = .error "digit >= base in parse_in_base_cpp"
    ∧ process_batch [⟨1, 1, [⟨1, 10, "5"⟩]⟩] = .ok [some 5] := by decide

/-- C6 (amended): a request with positive `n` and `k` whose records all decode but
supply fewer than `k` points fails fast — `solve_one` returns the generic failure
(printed `ERROR`) and performs zero subset interpolation attempts.  The failure is
not reported distinctly from `NoConsistentSubset` (see the counterexample). -/
theorem C6_insufficient_fails_fast (req : Request) (hn : 0 < req.n) (hk : 0 < req.k)
    (ys : List Int)
    (hparse : req.entries.mapM (fun e => parse_in_base_cpp e.value e.base) = .ok ys)
    (hins : ((req.entries.map (fun e => e.idx)).length : Int) < req.k) :
    solve_one req = .ok none ∧ solve_one_attempts req = 0 := by
  have hcond : ¬ (req.n ≤ 0 ∨ req.k ≤ 0) := by
    rintro (h | h) <;> omega
  constructor
  · simp only [solve_one]
    rw [if_neg hcond, hparse]
    show (if ((req.entries.map (fun e => e.idx)).length : Int) < req.k then Except.ok none
        else find_valid_constant (req.entries.map (fun e => e.idx)) ys req.k.toNat)
      = Except.ok (none : Option Int)
    rw [if_pos hins]
  · simp only [solve_one_attempts]
    rw [if_neg hcond, hparse]
    show (if ((req.entries.map (fun e => e.idx)).length : Int) < req.k then 0
        else find_valid_constant_attempts (req.entries.map (fun e => e.idx)) ys req.k.toNat)
      = 0
    rw [if_pos hins]

theorem C6_witness :
    solve_one ⟨2, 4, [⟨1, 10, "1"⟩, ⟨2, 10, "2"⟩]⟩ = .ok none
    ∧ solve_one_attempts ⟨2, 4, [⟨1, 10, "1"⟩, ⟨2, 10, "2"⟩]⟩ = 0 :=
  C6_insufficient_fails_fast ⟨2, 4, [⟨1, 10, "1"⟩, ⟨2, 10, "2"⟩]⟩ (by decide) (by decide)
    [1, 2] (by decide) (by decide)

/-- C6 counterexample: an insufficient-points request (2 points, threshold 4) and a
no-consistent-subset request (2 points, threshold 2, forcing the fractional line
through (1,0) and (3,1)) produce the identical observable outcome `.ok none`
(`ERROR`): the claimed distinctly-named `InsufficientPoints` outcome does not exist
in the code. -/
theorem C6_counterexample :
    solve_one ⟨2, 4, [⟨1, 10, "1"⟩, ⟨2, 10, "2"⟩]⟩ = .ok none
    ∧ solve_one ⟨2, 2, [⟨1, 10, "0"⟩, ⟨3, 10, "1"⟩]⟩ = .ok none
    ∧ solve_one ⟨2, 4, [⟨1, 10, "1"⟩, ⟨2, 10, "2"⟩]⟩
        = solve_one ⟨2, 2, [⟨1, 10, "0"⟩, ⟨3, 10, "1"⟩]⟩ := by decide

/-- C7: constructing a `Frac` with denominator 0 fails with the zero-denominator
error, and dividing by a `Frac` with numerator 0 fails with the
division-by-zero-fraction error; operands are immutable values, so the failing
operation leaves them (and all other state) unchanged. -/
theorem C7_division_by_zero_errors :
    (∀ n : Int, mkFrac n 0 = .error "zero denominator")
    ∧ (∀ a b : Frac, b.num = 0 → Frac.div a b = .error "division by zero fraction") :=
  ⟨mkFrac_zero_den, div_zero_num⟩

theorem C7_witness :
    mkFrac 5 0 = .error "zero denominator"
    ∧ Frac.div ⟨1, 2⟩ ⟨0, 1⟩ = .error "division by zero fraction" :=
  ⟨C7_division_by_zero_errors.1 5, C7_division_by_zero_errors.2 ⟨1, 2⟩ ⟨0, 1⟩ rfl⟩

/-- C8: on pairwise-distinct x-coordinates, the elimination of
`interpolate_and_check` never raises `DivisionByZero` (no exception escapes) and the
singular-rejection branch is unreachable: `solve_coeffs` always reaches the
coefficient extraction. -/
theorem C8_distinct_nodes_never_throw (xs ys : List Int) (hnd : xs.Nodup)
    (hlen : ys.length = xs.length) :
    (∃ out, solve_coeffs xs ys = .ok (some out))
    ∧ (∃ r, interpolate_and_check xs ys = .ok r) := by
  obtain ⟨out, hout⟩ := solve_coeffs_ok xs ys hnd
  refine ⟨⟨out, hout⟩, ?_⟩
  by_cases h : out.all Frac.isInteger = true
  · refine ⟨some out, ?_⟩
    simp only [interpolate_and_check, hout]
    rw [if_pos h]
  · refine ⟨none, ?_⟩
    simp only [interpolate_and_check, hout]
    rw [if_neg h]

theorem C8_witness :
    (∃ out, solve_coeffs [1, 2, 3] [5, 8, 13] = .ok (some out))
    ∧ (∃ r, interpolate_and_check [1, 2, 3] [5, 8, 13] = .ok r) :=
  C8_distinct_nodes_never_throw [1, 2, 3] [5, 8, 13] (by decide) (by decide)

/-- C9 counterexample: on the points (1,3), (2,6), (3,11) with threshold 3 the search
returns secret 2, not 1, and on (1,5), (2,8), (3,13), (4,20) with threshold 3 it
returns secret 4, not 2 — the spec's example polynomials do not fit these points. -/
theorem C9_counterexample :
    find_valid_constant [1, 2, 3] [3, 6, 11] 3 = .ok (some 2)
    ∧ find_valid_constant [1, 2, 3] [3, 6, 11] 3 ≠ .ok (some 1)
    ∧ find_valid_constant [1, 2, 3, 4] [5, 8, 13, 20] 3 = .ok (some 4)
    ∧ find_valid_constant [1, 2, 3, 4] [5, 8, 13, 20] 3 ≠ .ok (some 2) := by decide

/-- C9 (amended): the points (1,3), (2,6), (3,11) lie on `p(x) = x^2 + 2`, and with
threshold 3 the search returns its constant term 2; the points (1,5), (2,8), (3,13),
(4,20) lie on `p(x) = x^2 + 4`, the first subset in enumeration order is
{(1,5),(2,8),(3,13)}, its interpolation yields the integer coefficients (4, 0, 1),
and the search reports secret 4. -/
theorem C9_corrected_examples :
    find_valid_constant [1, 2, 3] [3, 6, 11] 3 = .ok (some 2)
    ∧ ([1, 2, 3] : List Int).map (evalPoly [2, 0, 1]) = [3, 6, 11]
    ∧ find_valid_constant [1, 2, 3, 4] [5, 8, 13, 20] 3 = .ok (some 4)
    ∧ ([1, 2, 3, 4] : List Int).map (evalPoly [4, 0, 1]) = [5, 8, 13, 20]
    ∧ masks 4 3 = [[1, 1, 1, 0], [1, 1, 0, 1], [1, 0, 1, 1], [0, 1, 1, 1]]
    ∧ interpolate_and_check [1, 2, 3] [5, 8, 13]
        = .ok (some [⟨4, 1⟩, ⟨0, 1⟩, ⟨1, 1⟩]) := by decide

/-- C10: the two source variants' acceptance policies differ observably: on the
points (1,−5), (2,7) with threshold 1 both singleton subsets validate under the
any-integer policy of `src/code.cpp`, which therefore reports −5, while the
strictly-positive policy of `src/unnamed/part_000` rejects the first subset and
reports 7; hence the two `interpolate_and_check` embeddings are not extensionally
equal. -/
theorem C10_policy_divergence :
    find_valid_constant [1, 2] [-5, 7] 1 = .ok (some (-5))
    ∧ find_valid_constant_v0 [1, 2] [-5, 7] 1 = .ok (some 7)
    ∧ interpolate_and_check [1] [-5] = .ok (some [⟨-5, 1⟩])
    ∧ interpolate_and_check [2] [7] = .ok (some [⟨7, 1⟩])
    ∧ interpolate_and_check_v0 [1] [-5] = .ok none
    ∧ interpolate_and_check ≠ interpolate_and_check_v0 := by
  refine ⟨by decide, by decide, by decide, by decide, by decide, ?_⟩
  intro hcon
  have h1 := congrFun (congrFun hcon [1]) [-5]
  rw [show interpolate_and_check [1] [-5] = .ok (some [⟨-5, 1⟩]) from by decide,
    show interpolate_and_check_v0 [1] [-5] = .ok none from by decide] at h1
  exact absurd h1 (by decide)

end Shamir
